/-
Verification of the textnoisr character-noise library.

Shallow embedding of `textnoisr/noise.py` and `textnoisr/noise_unbiasing.py`.

Modelling conventions:
* Python floats are modelled as real numbers (`ℝ`); `sys.float_info.epsilon`
  is the exact dyadic rational 2⁻⁵².
* The `random.Random(seed)` generator is a deterministic pseudo-random stream;
  seeding determines the whole stream.  We model the stream itself as a
  structure `Gen` holding the successive uniform draws (`u : ℕ → ℝ`, one per
  `random.random()` call) and the successive index draws (`c : ℕ → ℕ`, one per
  `random.choice` call, reduced mod the alphabet size).  The mutable generator
  state is the current position `k : ℕ`, advanced by one for every draw.
* Fallible Python code (raising `ValueError`, `ZeroDivisionError`,
  `IndexError`, a `complex`-comparison `TypeError`, or looping forever in the
  substitute rejection sampler) is modelled with `Except Err`.
* `scipy.optimize.fsolve` is external library code; it is modelled as a root
  of the (faithfully embedded) expected-CER equation.  No claim depends on the
  value computed by that branch.
-/
import Mathlib

open scoped Classical

noncomputable section

namespace Textnoisr

/-- Failure modes of the embedded Python code. -/
inductive Err where
  | valueError : Err
  | zeroDivision : Err
  | indexError : Err
  | complexCompare : Err
  | nonTermination : Err
  deriving DecidableEq

/-- The deterministic pseudo-random stream produced by `random.Random(seed)`:
`u n` is the `n`-th `random.random()` draw, `c n` the `n`-th `random.choice`
index draw.  The seed determines the whole stream. -/
structure Gen where
  u : ℕ → ℝ
  c : ℕ → ℕ

/-- `sys.float_info.epsilon`, exactly `2⁻⁵²`. -/
def floatEpsilon : ℝ := 1 / 2 ^ 52

/-- `MAX_SWAP_LEVEL = 4 - 2 * math.sqrt(3) - sys.float_info.epsilon`
from `noise_unbiasing.py`. -/
def MAX_SWAP_LEVEL : ℝ := 4 - 2 * Real.sqrt 3 - floatEpsilon

/-- `SWAP_START_STATE = [0, 0, 0, 0, 0, 0, 0, 1]` from `noise_unbiasing.py`. -/
def SWAP_START_STATE : Fin 8 → ℝ := ![0, 0, 0, 0, 0, 0, 0, 1]

/-- `SWAP_LEVENSHTEIN_VALUE = [1, 0, 0, 2, 0, 2, 0, 0]` from
`noise_unbiasing.py`. -/
def SWAP_LEVENSHTEIN_VALUE : Fin 8 → ℝ := ![1, 0, 0, 2, 0, 2, 0, 0]

/-- The transition matrix `P` of the Markov chain in
`__compute_expected_cer_from_noise_level` (with `q = 1 - p`). -/
def swapTransition (p : ℝ) : Matrix (Fin 8) (Fin 8) ℝ :=
  let q := 1 - p
  !![0, 0, 1, 0, 0, 0, 0, 0;
     0, 0, 0, p, q, 0, 0, 0;
     p, q, 0, 0, 0, 0, 0, 0;
     0, 0, 1, 0, 0, 0, 0, 0;
     0, 0, 0, p, q, 0, 0, 0;
     0, 0, 1, 0, 0, 0, 0, 0;
     0, 0, 0, p, q, 0, 0, 0;
     0, 0, 0, 0, 0, p, q, 0]

open Matrix in
/-- The loop of `__compute_expected_cer_from_noise_level`: after `n`
iterations, the pair of the state distribution and the accumulated
Levenshtein value. -/
def swapChainIter (p : ℝ) : ℕ → (Fin 8 → ℝ) × ℝ
  | 0 => (SWAP_START_STATE, SWAP_START_STATE ⬝ᵥ SWAP_LEVENSHTEIN_VALUE)
  | n + 1 =>
      let s := (swapChainIter p n).1 ᵥ* swapTransition p
      (s, (swapChainIter p n).2 + s ⬝ᵥ SWAP_LEVENSHTEIN_VALUE)

/-- `__compute_expected_cer_from_noise_level(p, N)`: the loop runs `N - 1`
times and the accumulated value is divided by `N`. -/
def compute_expected_cer_from_noise_level (p : ℝ) (N : ℕ) : ℝ :=
  (swapChainIter p (N - 1)).2 / N

/-- `__compute_noise_level_from_expected_cer(cer, N)`: the numeric root-find
performed by `scipy.optimize.fsolve` (external library code), modelled as a
root of the embedded expected-CER equation.  No claim depends on its value. -/
def compute_noise_level_from_expected_cer (cer : ℝ) (N : ℕ) : ℝ :=
  sInf {x : ℝ | 0 ≤ x ∧ compute_expected_cer_from_noise_level x N = cer}

/-- `unbias_swap(p, N)` from `noise_unbiasing.py`: clamp `p` to
`MAX_SWAP_LEVEL` first, then the `N == 0`, `p == 0`, `N > 50` and solver
branches, in that order. -/
def unbias_swap (p : ℝ) (N : ℕ) : ℝ :=
  let p1 := min p MAX_SWAP_LEVEL
  if N = 0 then p1
  else if p1 = 0 then 0
  else if 50 < N then (2 - p1) / 2 - Real.sqrt (p1 ^ 2 - 8 * p1 + 4) / 2
  else compute_noise_level_from_expected_cer p1 N

/-- `unbias_split_into_words(p, text)` from `noise_unbiasing.py`.  The Python
code divides `n_spaces / n_chars` unconditionally; when `n_chars = 0` this
raises `ZeroDivisionError`, modelled as `Except.error`. -/
def unbias_split_into_words (p : ℝ) (text : List (List Char)) : Except Err ℝ :=
  let n_chars : ℕ := (text.map List.length).sum
  let n_spaces : ℝ := (text.length : ℝ) - 1
  if n_chars = 0 then .error .zeroDivision
  else .ok (p * (1 + n_spaces / (n_chars : ℝ)))

/-- `unbias_several_action(p, n_actions)` from `noise_unbiasing.py`:
`1.0 - (1.0 - p) ** (1 / n_actions)`.  `n_actions = 0` raises
`ZeroDivisionError`.  When `1 - p < 0` and the exponent is not integral
(`n_actions ≠ 1`), Python's `**` yields a `complex`, which later raises a
`TypeError` at the first `random.random() < p` comparison; this is modelled
as an error here. -/
def unbias_several_action (p : ℝ) (n_actions : ℕ) : Except Err ℝ :=
  if n_actions = 0 then .error .zeroDivision
  else if 1 - p < 0 ∧ n_actions ≠ 1 then .error .complexCompare
  else .ok (1 - (1 - p) ^ ((1 : ℝ) / (n_actions : ℝ)))

/-- `CharNoiseAugmenter._AVAILABLE_ACTIONS`. -/
def AVAILABLE_ACTIONS : List String := ["insert", "swap", "substitute", "delete"]

/-- `string.ascii_letters`, the default `character_set`. -/
def ascii_letters : List Char :=
  "abcdefghijklmnopqrstuvwxyzABCDEFGHIJKLMNOPQRSTUVWXYZ".toList

/-- The first-occurrence deduplication
`[x for i, x in enumerate(actions) if x not in actions[:i]]`
performed by `CharNoiseAugmenter.__init__`. -/
def dedupFirst (l : List String) : List String :=
  l.foldl (fun acc x => if x ∈ acc then acc else acc ++ [x]) []

/-- The state of a constructed `CharNoiseAugmenter` (minus the RNG, which is
modelled separately by `Gen` and a position). -/
structure Config where
  noise_level : ℝ
  actions : List String
  character_set : List Char

/-- `CharNoiseAugmenter.__init__`: deduplicate the actions, then perform the
three validation checks in source order.  Note: `character_set` is never
validated. -/
def init (noise_level : ℝ) (actions : List String) (character_set : List Char) :
    Except Err Config :=
  let acts := dedupFirst actions
  if ¬ (acts.filter (fun a => a ∉ AVAILABLE_ACTIONS) = []) then .error .valueError
  else if ¬ (0 ≤ noise_level ∧ noise_level ≤ 1) then .error .valueError
  else if MAX_SWAP_LEVEL < noise_level ∧ "swap" ∈ acts then .error .valueError
  else .ok ⟨noise_level, acts, character_set⟩

/-- Whether an embedded computation succeeded. -/
def exceptOk {α : Type} : Except Err α → Bool
  | .ok _ => true
  | .error _ => false

/-- The element `random.choice(cs)` returns when the underlying index draw is
`n`: the index is reduced mod the alphabet size (only used with `cs ≠ []`). -/
def csGet (cs : List Char) (n : ℕ) : Char :=
  cs.getD (n % cs.length) 'a'

/-- `random.choice(character_set)`: raises `IndexError` on an empty sequence,
otherwise consumes one draw. -/
def random_choice (cs : List Char) (G : Gen) (k : ℕ) : Except Err (Char × ℕ) :=
  if cs = [] then .error .indexError
  else .ok (csGet cs (G.c k), k + 1)

/-- `CharNoiseAugmenter._random_char`:
`self._random_success(p) * self.random.choice(character_set)`.
The Bernoulli draw happens first, then `random.choice` is called
unconditionally (so an empty `character_set` raises even when the draw
failed); `False * s = ""` and `True * s = s`. -/
def random_char (cs : List Char) (G : Gen) (p : ℝ) (k : ℕ) :
    Except Err (List Char × ℕ) :=
  match random_choice cs G (k + 1) with
  | .error e => .error e
  | .ok (ch, k2) => .ok ((if G.u k < p then [ch] else []), k2)

/-- `CharNoiseAugmenter.insert_random_chars`:
`"".join(char + self._random_char(p, self.character_set) for char in text)`. -/
def insert_random_chars (cs : List Char) (G : Gen) (p : ℝ) :
    List Char → ℕ → Except Err (List Char × ℕ)
  | [], k => .ok ([], k)
  | ch :: rest, k =>
      match random_char cs G p k with
      | .error e => .error e
      | .ok (ins, k2) =>
          match insert_random_chars cs G p rest k2 with
          | .error e => .error e
          | .ok (out, k3) => .ok (ch :: (ins ++ out), k3)

/-- `CharNoiseAugmenter._choose_another_character`: draw from
`character_set`, redrawing while the draw equals `char`.  An empty alphabet
raises `IndexError` on the first draw; an alphabet whose every reachable
element equals `char` loops forever (modelled as `Err.nonTermination`);
otherwise the loop stops at the first differing draw, having consumed one
position per draw. -/
def choose_another_character (cs : List Char) (G : Gen) (ch : Char) (k : ℕ) :
    Except Err (Char × ℕ) :=
  if cs = [] then .error .indexError
  else if h : ∃ j, k ≤ j ∧ csGet cs (G.c j) ≠ ch then
    .ok (csGet cs (G.c (Nat.find h)), Nat.find h + 1)
  else .error .nonTermination

/-- `CharNoiseAugmenter.substitute_random_chars`: for each character, a
Bernoulli draw decides whether to replace it via
`_choose_another_character`. -/
def substitute_random_chars (cs : List Char) (G : Gen) (p : ℝ) :
    List Char → ℕ → Except Err (List Char × ℕ)
  | [], k => .ok ([], k)
  | ch :: rest, k =>
      if G.u k < p then
        match choose_another_character cs G ch (k + 1) with
        | .error e => .error e
        | .ok (c2, k2) =>
            match substitute_random_chars cs G p rest k2 with
            | .error e => .error e
            | .ok (out, k3) => .ok (c2 :: out, k3)
      else
        match substitute_random_chars cs G p rest (k + 1) with
        | .error e => .error e
        | .ok (out, k2) => .ok (ch :: out, k2)

/-- `CharNoiseAugmenter.delete_random_chars`: each character is dropped when
its Bernoulli draw succeeds. -/
def delete_random_chars (G : Gen) (p : ℝ) :
    List Char → ℕ → List Char × ℕ
  | [], k => ([], k)
  | ch :: rest, k =>
      let r := delete_random_chars G p rest (k + 1)
      ((if G.u k < p then r.1 else ch :: r.1), r.2)

/-- The loop of `CharNoiseAugmenter.consecutive_swap_random_chars` over
`zip_longest(text, text[1:], fillvalue="")`, carrying the `was_swapped`
flag.  When the flag is set the iteration emits nothing and clears it
(its character was already emitted by the preceding `extend`); otherwise a
Bernoulli draw either emits `[next_char, current_char]` and sets the flag
(at the last character `next_char` is `""`, which vanishes in the join), or
emits the current character. -/
def swapAux (G : Gen) (p : ℝ) : List Char → Bool → ℕ → List Char × ℕ
  | [], _, k => ([], k)
  | _ :: rest, true, k => swapAux G p rest false k
  | ch :: rest, false, k =>
      if G.u k < p then
        match rest with
        | [] => ([ch], k + 1)
        | nxt :: _ =>
            let r := swapAux G p rest true (k + 1)
            (nxt :: ch :: r.1, r.2)
      else
        let r := swapAux G p rest false (k + 1)
        (ch :: r.1, r.2)

/-- `CharNoiseAugmenter.consecutive_swap_random_chars`: first re-bias the
probability with `unbias_swap` at the current length, then run the swap
loop. -/
def consecutive_swap_random_chars (G : Gen) (p : ℝ) (text : List Char) (k : ℕ) :
    List Char × ℕ :=
  swapAux G (unbias_swap p text.length) text false k

/-- The argument of `CharNoiseAugmenter.add_noise`: a single string or a list
of tokens. -/
inductive TextInput where
  | str : List Char → TextInput
  | toks : List (List Char) → TextInput

/-- One action of the `match action` dispatch in `add_noise`, applied to a
single string.  An unrecognized action raises `ValueError`. -/
def applyActionStr (cs : List Char) (a : String) (G : Gen) (p : ℝ)
    (s : List Char) (k : ℕ) : Except Err (List Char × ℕ) :=
  if a = "insert" then insert_random_chars cs G p s k
  else if a = "swap" then .ok (consecutive_swap_random_chars G p s k)
  else if a = "substitute" then substitute_random_chars cs G p s k
  else if a = "delete" then .ok (delete_random_chars G p s k)
  else .error .valueError

/-- `[action_function(word, p_effective) for word in text]`: the action applied
to each token in order, threading the RNG position. -/
def applyActionToks (cs : List Char) (a : String) (G : Gen) (p : ℝ) :
    List (List Char) → ℕ → Except Err (List (List Char) × ℕ)
  | [], k => .ok ([], k)
  | w :: ws, k =>
      match applyActionStr cs a G p w k with
      | .error e => .error e
      | .ok (w2, k2) =>
          match applyActionToks cs a G p ws k2 with
          | .error e => .error e
          | .ok (ws2, k3) => .ok (w2 :: ws2, k3)

/-- The `for action in self.actions` loop of `add_noise`: each action consumes
the previous action's output. -/
def runActions (cs : List Char) (G : Gen) (p : ℝ) :
    List String → TextInput → ℕ → Except Err (TextInput × ℕ)
  | [], t, k => .ok (t, k)
  | a :: rest, .str s, k =>
      match applyActionStr cs a G p s k with
      | .error e => .error e
      | .ok (s2, k2) => runActions cs G p rest (.str s2) k2
  | a :: rest, .toks ws, k =>
      match applyActionToks cs a G p ws k with
      | .error e => .error e
      | .ok (ws2, k2) => runActions cs G p rest (.toks ws2) k2

/-- `CharNoiseAugmenter.add_noise`: compute the word-split correction for
token input (the raw noise level for string input), then the several-action
correction, then run the configured actions in order. -/
def add_noise (cfg : Config) (G : Gen) (t : TextInput) (k : ℕ) :
    Except Err (TextInput × ℕ) :=
  let pE : Except Err ℝ :=
    match t with
    | .toks ws => unbias_split_into_words cfg.noise_level ws
    | .str _ => .ok cfg.noise_level
  match pE with
  | .error e => .error e
  | .ok p =>
      match unbias_several_action p cfg.actions.length with
      | .error e => .error e
      | .ok p_eff => runActions cfg.character_set G p_eff cfg.actions t k

/-- A sequence of `add_noise` calls on one augmenter instance, threading the
RNG position; the first failure aborts the run. -/
def runSeq (cfg : Config) (G : Gen) :
    List TextInput → ℕ → Except Err (List TextInput × ℕ)
  | [], k => .ok ([], k)
  | t :: ts, k =>
      match add_noise cfg G t k with
      | .error e => .error e
      | .ok (o, k2) =>
          match runSeq cfg G ts k2 with
          | .error e => .error e
          | .ok (os, k3) => .ok (o :: os, k3)

/-! ### Helper lemmas -/

theorem sqrt_three_gt : (1.73 : ℝ) < Real.sqrt 3 := by
  rw [show (3 : ℝ) = Real.sqrt 3 ^ 2 by rw [Real.sq_sqrt]; norm_num] at *
  rw [Real.lt_sqrt (by norm_num)]
  rw [Real.sq_sqrt (by norm_num)]
  norm_num

theorem sqrt_three_lt : Real.sqrt 3 < (1.74 : ℝ) := by
  rw [Real.sqrt_lt' (by norm_num)]
  norm_num

theorem floatEpsilon_pos : (0 : ℝ) < floatEpsilon := by
  unfold floatEpsilon; positivity

theorem floatEpsilon_lt : floatEpsilon < (1 / 100 : ℝ) := by
  unfold floatEpsilon
  norm_num

theorem MSL_pos : (0 : ℝ) < MAX_SWAP_LEVEL := by
  unfold MAX_SWAP_LEVEL
  have h1 := sqrt_three_lt
  have h2 := floatEpsilon_lt
  linarith

theorem MSL_lt_one : MAX_SWAP_LEVEL < 1 := by
  unfold MAX_SWAP_LEVEL
  have h1 := sqrt_three_gt
  have h2 := floatEpsilon_pos
  linarith

theorem mem_foldl_dedup (l : List String) :
    ∀ (acc : List String) (y : String),
      y ∈ l.foldl (fun acc x => if x ∈ acc then acc else acc ++ [x]) acc ↔
        y ∈ acc ∨ y ∈ l := by
  induction l with
  | nil => intro acc y; simp
  | cons a l ih =>
      intro acc y
      simp only [List.foldl_cons]
      by_cases ha : a ∈ acc
      · rw [if_pos ha, ih]
        constructor
        · rintro (h | h)
          · exact Or.inl h
          · exact Or.inr (List.mem_cons_of_mem _ h)
        · rintro (h | h)
          · exact Or.inl h
          · rcases List.mem_cons.mp h with rfl | h
            · exact Or.inl ha
            · exact Or.inr h
      · rw [if_neg ha, ih]
        simp only [List.mem_append, List.mem_singleton, List.mem_cons]
        tauto

theorem mem_dedupFirst (l : List String) (y : String) :
    y ∈ dedupFirst l ↔ y ∈ l := by
  unfold dedupFirst
  rw [mem_foldl_dedup]
  simp

/-- Rearrangements obtainable purely by transposing disjoint adjacent pairs:
each character is either kept in place or exchanged with its immediate
successor, and a transposed pair is consumed (neither member can take part in
another transposition). -/
inductive SwapStep : List Char → List Char → Prop
  | nil : SwapStep [] []
  | keep (a : Char) {l l' : List Char} : SwapStep l l' → SwapStep (a :: l) (a :: l')
  | swap (a b : Char) {l l' : List Char} :
      SwapStep l l' → SwapStep (a :: b :: l) (b :: a :: l')

theorem SwapStep.length_eq {l l' : List Char} (h : SwapStep l l') :
    l'.length = l.length := by
  induction h with
  | nil => rfl
  | keep a _ ih => simp [ih]
  | swap a b _ ih => simp [ih]

theorem SwapStep.multiset_eq {l l' : List Char} (h : SwapStep l l') :
    (l' : Multiset Char) = (l : Multiset Char) := by
  induction h with
  | nil => rfl
  | keep a _ ih =>
      simpa using congrArg (Multiset.cons a) ih
  | swap a b h ih =>
      rw [← Multiset.cons_coe, ← Multiset.cons_coe, ← Multiset.cons_coe,
        ← Multiset.cons_coe, ih, Multiset.cons_swap]

/-- Whenever the alphabet holds two distinct characters, for every character
some alphabet element differs from it. -/
def TwoDistinct (cs : List Char) : Prop :=
  ∃ a ∈ cs, ∃ b ∈ cs, a ≠ b

/-- The index stream reaches every residue class modulo the alphabet size
from every starting point.  This holds for the Mersenne-Twister stream
underlying `random.Random` (its outputs are equidistributed), and it is what
makes the rejection sampler of `_choose_another_character` terminate. -/
def FairGen (c : ℕ → ℕ) (n : ℕ) : Prop :=
  ∀ (start i : ℕ), i < n → ∃ j, start ≤ j ∧ c j % n = i

theorem fair_id (n : ℕ) : FairGen (fun j => j) n := by
  intro start i hi
  refine ⟨start * n + i, ?_, ?_⟩
  · have hn : 1 ≤ n := Nat.one_le_iff_ne_zero.mpr (by omega)
    calc start = start * 1 := (Nat.mul_one start).symm
    _ ≤ start * n := Nat.mul_le_mul_left start hn
    _ ≤ start * n + i := Nat.le_add_right _ _
  · show (start * n + i) % n = i
    rw [Nat.mul_comm start n, Nat.mul_add_mod, Nat.mod_eq_of_lt hi]

/-- A concrete stream used by the witnesses: every uniform draw is `1/2`,
the index draws enumerate `0, 1, 2, …`. -/
def genHalf : Gen := ⟨fun _ => 1 / 2, fun j => j⟩

/-- A concrete valid configuration used by witnesses. -/
def cfg0 : Config := ⟨1 / 2, ["delete"], ['a', 'b']⟩

/-! ### Claim C5 -/

/-- Claim C5, amended: `unbias_swap` clamps `p` to `MAX_SWAP_LEVEL` before
the `N = 0` early return, so `unbias_swap p 0 = min p MAX_SWAP_LEVEL`
(which equals `p` only when `p ≤ MAX_SWAP_LEVEL`); and `unbias_swap 0 N = 0`
for every `N`. -/
theorem claim_C5_amended (p : ℝ) (N : ℕ) :
    unbias_swap p 0 = min p MAX_SWAP_LEVEL ∧ unbias_swap 0 N = 0 := by
  constructor
  · simp [unbias_swap]
  · have h0 : min (0 : ℝ) MAX_SWAP_LEVEL = 0 := min_eq_left MSL_pos.le
    rcases Nat.eq_zero_or_pos N with hN | hN
    · subst hN; simp [unbias_swap, h0]
    · simp only [unbias_swap]
      rw [if_neg (by omega), h0, if_pos rfl]

/-- Claim C5, counterexample: `unbias_swap(1, 0)` is the clamped value
`MAX_SWAP_LEVEL`, not the unchanged `p_target = 1` the claim demands. -/
theorem claim_C5_counterexample : unbias_swap 1 0 ≠ 1 := by
  have h : unbias_swap 1 0 = min 1 MAX_SWAP_LEVEL := by simp [unbias_swap]
  rw [h, min_eq_right MSL_lt_one.le]
  exact ne_of_lt MSL_lt_one

/-! ### Claim C2 -/

/-- Claim C2, amended: `unbias_split_into_words` returns
`p * (1 + n_separators / n_chars)` when `n_chars > 0`, but when
`n_chars = 0` it raises `ZeroDivisionError` (there is no special case
returning `p` unchanged). -/
theorem claim_C2_amended (p : ℝ) (text : List (List Char)) :
    (0 < (text.map List.length).sum →
      unbias_split_into_words p text =
        .ok (p * (1 + ((text.length : ℝ) - 1) / (((text.map List.length).sum : ℕ) : ℝ)))) ∧
    ((text.map List.length).sum = 0 →
      unbias_split_into_words p text = .error .zeroDivision) := by
  constructor
  · intro h
    unfold unbias_split_into_words
    rw [if_neg (by omega)]
  · intro h
    unfold unbias_split_into_words
    rw [if_pos h]

/-- Witness for C2: a token list with 2 characters in 2 tokens yields
`p * (1 + 1/2)`. -/
theorem claim_C2_witness :
    0 < (([['a'], ['b']] : List (List Char)).map List.length).sum ∧
    unbias_split_into_words (1 / 2) [['a'], ['b']] = .ok (3 / 4) := by
  refine ⟨by decide, ?_⟩
  have h := (claim_C2_amended (1 / 2) [['a'], ['b']]).1 (by decide)
  rw [h]
  norm_num

/-- Claim C2, counterexample: on the empty token list (`n_chars = 0`) the
code raises `ZeroDivisionError` instead of returning `p` unchanged. -/
theorem claim_C2_counterexample :
    unbias_split_into_words (1 / 2) ([] : List (List Char)) = .error .zeroDivision := by
  unfold unbias_split_into_words
  simp

/-! ### Claim C3 -/

/-- Claim C3, amended: the several-action correction maps `p ∈ [0,1]` (with
at least one action) into `[0,1]`, and the swap correction maps `p ∈ [0,1]`
into `[0,1]` in its `N = 0` and closed-form `N > 50` branches; but the
word-split correction can produce a probability above 1 (see the
counterexample), so not every internally corrected probability lies in
`[0,1]`. -/
theorem claim_C3_amended (p : ℝ) (n N : ℕ) (h0 : 0 ≤ p) (h1 : p ≤ 1) :
    (1 ≤ n → ∃ q, unbias_several_action p n = .ok q ∧ 0 ≤ q ∧ q ≤ 1) ∧
    ((N = 0 ∨ 50 < N) → 0 ≤ unbias_swap p N ∧ unbias_swap p N ≤ 1) := by
  constructor
  · intro hn
    refine ⟨1 - (1 - p) ^ ((1 : ℝ) / (n : ℝ)), ?_, ?_, ?_⟩
    · unfold unbias_several_action
      rw [if_neg (by omega), if_neg (by intro h; linarith [h.1])]
    · have hb : (1 - p) ^ ((1 : ℝ) / (n : ℝ)) ≤ 1 :=
        Real.rpow_le_one (by linarith) (by linarith) (by positivity)
      linarith
    · have hb : 0 ≤ (1 - p) ^ ((1 : ℝ) / (n : ℝ)) :=
        Real.rpow_nonneg (by linarith) _
      linarith
  · intro hN
    have hp1_nonneg : 0 ≤ min p MAX_SWAP_LEVEL := le_min h0 MSL_pos.le
    have hp1_le_one : min p MAX_SWAP_LEVEL ≤ 1 := (min_le_left _ _).trans h1
    rcases hN with rfl | hN
    · simp only [unbias_swap, if_pos rfl]
      exact ⟨hp1_nonneg, hp1_le_one⟩
    · simp only [unbias_swap]
      rw [if_neg (by omega)]
      by_cases hz : min p MAX_SWAP_LEVEL = 0
      · rw [if_pos hz]; norm_num
      · rw [if_neg hz, if_pos hN]
        have hs_nonneg : 0 ≤ Real.sqrt ((min p MAX_SWAP_LEVEL) ^ 2 -
            8 * min p MAX_SWAP_LEVEL + 4) := Real.sqrt_nonneg _
        have hs_le : Real.sqrt ((min p MAX_SWAP_LEVEL) ^ 2 -
            8 * min p MAX_SWAP_LEVEL + 4) ≤ 2 - min p MAX_SWAP_LEVEL := by
          have h2 : (min p MAX_SWAP_LEVEL) ^ 2 - 8 * min p MAX_SWAP_LEVEL + 4 ≤
              (2 - min p MAX_SWAP_LEVEL) ^ 2 := by nlinarith
          calc Real.sqrt ((min p MAX_SWAP_LEVEL) ^ 2 - 8 * min p MAX_SWAP_LEVEL + 4)
              ≤ Real.sqrt ((2 - min p MAX_SWAP_LEVEL) ^ 2) := Real.sqrt_le_sqrt h2
            _ = 2 - min p MAX_SWAP_LEVEL := Real.sqrt_sq (by linarith)
        constructor
        · linarith
        · linarith

/-- Witness for C3 (amended): concrete in-range inputs for both corrected
probabilities. -/
theorem claim_C3_witness :
    (∃ q, unbias_several_action (1 / 2) 2 = .ok q ∧ 0 ≤ q ∧ q ≤ 1) ∧
    (0 ≤ unbias_swap (1 / 2) 51 ∧ unbias_swap (1 / 2) 51 ≤ 1) :=
  ⟨(claim_C3_amended (1 / 2) 2 51 (by norm_num) (by norm_num)).1 (by norm_num),
   (claim_C3_amended (1 / 2) 2 51 (by norm_num) (by norm_num)).2 (Or.inr (by norm_num))⟩

/-- Claim C3, counterexample: with the valid noise level `1` and the token
list `["a", "b"]`, the word-split correction produces `3/2 > 1`. -/
theorem claim_C3_counterexample :
    unbias_split_into_words 1 [['a'], ['b']] = .ok (3 / 2) ∧ (1 : ℝ) < 3 / 2 := by
  constructor
  · unfold unbias_split_into_words
    rw [if_neg (by decide)]
    norm_num
  · norm_num

/-! ### Claim C6 -/

theorem filter_unsupported_eq_nil (acts : List String) :
    acts.filter (fun a => a ∉ AVAILABLE_ACTIONS) = [] ↔
      ∀ a ∈ acts, a ∈ AVAILABLE_ACTIONS := by
  rw [List.filter_eq_nil_iff]
  simp

/-- Claim C6, confirmed: construction fails exactly for an unsupported action
name, a noise level outside `[0,1]`, or `swap` together with a noise level
strictly above `MAX_SWAP_LEVEL`; in particular `actions = ["swap"]` at
exactly `MAX_SWAP_LEVEL` succeeds. -/
theorem claim_C6_construction (nl : ℝ) (actions : List String) (cs : List Char) :
    (exceptOk (init nl actions cs) = false ↔
      (∃ a ∈ actions, a ∉ AVAILABLE_ACTIONS) ∨ nl < 0 ∨ 1 < nl ∨
        ("swap" ∈ actions ∧ MAX_SWAP_LEVEL < nl)) ∧
    exceptOk (init MAX_SWAP_LEVEL ["swap"] ascii_letters) = true := by
  constructor
  · by_cases hA : (dedupFirst actions).filter (fun a => a ∉ AVAILABLE_ACTIONS) = []
    · by_cases hB : 0 ≤ nl ∧ nl ≤ 1
      · by_cases hC : MAX_SWAP_LEVEL < nl ∧ "swap" ∈ dedupFirst actions
        · simp only [init]
          rw [if_neg (not_not_intro hA), if_neg (not_not_intro hB), if_pos hC]
          simp only [exceptOk, true_iff]
          exact Or.inr (Or.inr (Or.inr
            ⟨(mem_dedupFirst actions "swap").mp hC.2, hC.1⟩))
        · simp only [init]
          rw [if_neg (not_not_intro hA), if_neg (not_not_intro hB), if_neg hC]
          simp only [exceptOk, Bool.true_eq_false, false_iff]
          rw [filter_unsupported_eq_nil] at hA
          push_neg at hC
          rintro (⟨a, ha, hna⟩ | h | h | ⟨hmem, hlt⟩)
          · exact hna (hA a ((mem_dedupFirst actions a).mpr ha))
          · linarith [hB.1]
          · linarith [hB.2]
          · exact absurd ((mem_dedupFirst actions "swap").mpr hmem) (hC hlt)
      · simp only [init]
        rw [if_neg (not_not_intro hA), if_pos hB]
        simp only [exceptOk, true_iff]
        push_neg at hB
        rcases lt_or_le nl 0 with h | h
        · exact Or.inr (Or.inl h)
        · exact Or.inr (Or.inr (Or.inl (hB h)))
    · simp only [init]
      rw [if_pos hA]
      simp only [exceptOk, true_iff]
      rw [filter_unsupported_eq_nil] at hA
      push_neg at hA
      obtain ⟨a, ha, hna⟩ := hA
      exact Or.inl ⟨a, (mem_dedupFirst actions a).mp ha, hna⟩
  · have hd : dedupFirst ["swap"] = ["swap"] := by decide
    simp only [init, hd]
    rw [if_neg (not_not_intro (by decide)),
      if_neg (not_not_intro ⟨MSL_pos.le, MSL_lt_one.le⟩),
      if_neg (fun h => lt_irrefl _ h.1)]
    rfl

/-! ### Claim C4 -/

/-- Claim C4, amended: construction performs no `character_set` validation at
all — its outcome is independent of `character_set`, a single-symbol
alphabet together with `substitute` is accepted, and the rejection sampler
`_choose_another_character` then diverges at run time when the drawn pool
holds no character different from the input. -/
theorem claim_C4_amended :
    (∀ (nl : ℝ) (actions : List String) (cs1 cs2 : List Char),
      exceptOk (init nl actions cs1) = exceptOk (init nl actions cs2)) ∧
    exceptOk (init (1 / 2) ["substitute"] ['a']) = true ∧
    choose_another_character ['a'] genHalf 'a' 0 = .error .nonTermination := by
  refine ⟨?_, ?_, ?_⟩
  · intro nl actions cs1 cs2
    simp only [init]
    split_ifs <;> rfl
  · have hd : dedupFirst ["substitute"] = ["substitute"] := by decide
    simp only [init, hd]
    rw [if_neg (not_not_intro (by decide)),
      if_neg (not_not_intro (by norm_num)),
      if_neg (fun h => absurd h.2 (by decide))]
    rfl
  · have hc : ∀ n, csGet ['a'] n = 'a' := by intro n; simp [csGet]
    unfold choose_another_character
    rw [if_neg (by decide), dif_neg]
    push_neg
    intro j _
    exact hc _

/-- Claim C4, counterexample: constructing with `substitute` and the
single-symbol `character_set = ("a",)` succeeds — no validation error is
raised. -/
theorem claim_C4_counterexample :
    init (1 / 2) ["substitute"] ['a'] = .ok ⟨1 / 2, ["substitute"], ['a']⟩ := by
  have hd : dedupFirst ["substitute"] = ["substitute"] := by decide
  simp only [init, hd]
  rw [if_neg (not_not_intro (by decide)),
    if_neg (not_not_intro (by norm_num)),
    if_neg (fun h => absurd h.2 (by decide))]

/-! ### Claim C9 -/

/-- Claim C9, confirmed: the noising pipeline is a pure function of the
configuration, the seed-determined random stream, and the call sequence, so
two augmenters with identical seeds and configurations produce bit-identical
output sequences for identical call sequences. -/
theorem claim_C9_determinism (cfg1 cfg2 : Config) (G1 G2 : Gen)
    (inputs : List TextInput) (k : ℕ)
    (hcfg : cfg1 = cfg2) (hG : G1 = G2) :
    runSeq cfg1 G1 inputs k = runSeq cfg2 G2 inputs k := by
  rw [hcfg, hG]

/-- Witness for C9: two identically-seeded augmenters on a two-call
sequence. -/
theorem claim_C9_witness :
    cfg0 = cfg0 ∧ genHalf = genHalf ∧
    runSeq cfg0 genHalf [TextInput.str ['a'], TextInput.str ['b']] 0 =
      runSeq cfg0 genHalf [TextInput.str ['a'], TextInput.str ['b']] 0 :=
  ⟨rfl, rfl, claim_C9_determinism cfg0 cfg0 genHalf genHalf _ 0 rfl rfl⟩

/-! ### Executor helper lemmas -/

theorem swapAux_nil (G : Gen) (p : ℝ) (b : Bool) (k : ℕ) :
    swapAux G p [] b k = ([], k) := rfl

theorem swapAux_true_cons (G : Gen) (p : ℝ) (ch : Char) (rest : List Char) (k : ℕ) :
    swapAux G p (ch :: rest) true k = swapAux G p rest false k := rfl

theorem swapAux_singleton (G : Gen) (p : ℝ) (ch : Char) (k : ℕ) :
    swapAux G p [ch] false k = ([ch], k + 1) := by
  by_cases hb : G.u k < p
  · simp only [swapAux, if_pos hb]
  · simp only [swapAux, if_neg hb, swapAux_nil]

theorem swapAux_cons_cons_pos (G : Gen) (p : ℝ) (ch nxt : Char) (rest : List Char)
    (k : ℕ) (hb : G.u k < p) :
    swapAux G p (ch :: nxt :: rest) false k =
      (nxt :: ch :: (swapAux G p rest false (k + 1)).1,
        (swapAux G p rest false (k + 1)).2) := by
  simp only [swapAux, if_pos hb]

theorem swapAux_cons_neg (G : Gen) (p : ℝ) (ch : Char) (rest : List Char)
    (k : ℕ) (hb : ¬ G.u k < p) :
    swapAux G p (ch :: rest) false k =
      (ch :: (swapAux G p rest false (k + 1)).1,
        (swapAux G p rest false (k + 1)).2) := by
  simp only [swapAux, if_neg hb]

theorem swapAux_swapStep (G : Gen) (p : ℝ) :
    ∀ (n : ℕ) (l : List Char), l.length ≤ n → ∀ (k : ℕ),
      SwapStep l (swapAux G p l false k).1 := by
  intro n
  induction n with
  | zero =>
      intro l hl k
      have hnil : l = [] := List.length_eq_zero.mp (Nat.le_zero.mp hl)
      subst hnil
      exact SwapStep.nil
  | succ n ih =>
      intro l hl k
      rcases l with _ | ⟨ch, rest⟩
      · exact SwapStep.nil
      rcases rest with _ | ⟨nxt, rest2⟩
      · rw [swapAux_singleton]
        exact SwapStep.keep ch SwapStep.nil
      by_cases hb : G.u k < p
      · rw [swapAux_cons_cons_pos G p ch nxt rest2 k hb]
        have hlen : rest2.length ≤ n := by
          simp only [List.length_cons] at hl; omega
        exact SwapStep.swap ch nxt (ih rest2 hlen (k + 1))
      · rw [swapAux_cons_neg G p ch (nxt :: rest2) k hb]
        have hlen : (nxt :: rest2).length ≤ n := by
          simp only [List.length_cons] at hl ⊢; omega
        exact SwapStep.keep ch (ih (nxt :: rest2) hlen (k + 1))

theorem csGet_mem (cs : List Char) (hcs : cs ≠ []) (n : ℕ) : csGet cs n ∈ cs := by
  unfold csGet
  have hlt : n % cs.length < cs.length :=
    Nat.mod_lt n (List.length_pos.mpr hcs)
  rw [List.getD_eq_getElem cs 'a' hlt]
  exact List.getElem_mem hlt

theorem insert_spec (cs : List Char) (G : Gen) (p : ℝ) (hcs : cs ≠ []) :
    ∀ (text : List Char) (k : ℕ),
      ∃ out k2, insert_random_chars cs G p text k = .ok (out, k2) ∧
        text.length ≤ out.length ∧ out.length ≤ 2 * text.length ∧
        List.Sublist text out := by
  intro text
  induction text with
  | nil => exact fun k => ⟨[], k, rfl, by simp, by simp, List.nil_sublist _⟩
  | cons ch rest ih =>
      intro k
      obtain ⟨out, k2, hout, hlen1, hlen2, hsub⟩ := ih (k + 2)
      have hrc : random_char cs G p k =
          .ok ((if G.u k < p then [csGet cs (G.c (k + 1))] else []), k + 2) := by
        unfold random_char random_choice
        rw [if_neg hcs]
      refine ⟨ch :: ((if G.u k < p then [csGet cs (G.c (k + 1))] else []) ++ out),
        k2, ?_, ?_, ?_, ?_⟩
      · simp only [insert_random_chars, hrc, hout]
      · by_cases hb : G.u k < p
        · simp only [if_pos hb, List.length_cons, List.length_append,
            List.length_singleton, List.length_nil, List.nil_append]
          omega
        · simp only [if_neg hb, List.nil_append, List.length_cons,
            List.length_nil, List.length_append]
          omega
      · by_cases hb : G.u k < p
        · simp only [if_pos hb, List.length_cons, List.length_append,
            List.length_singleton, List.length_nil, List.nil_append]
          omega
        · simp only [if_neg hb, List.nil_append, List.length_cons,
            List.length_nil, List.length_append]
          omega
      · exact (hsub.trans (List.sublist_append_right _ _)).cons₂ ch

theorem choose_another_spec (cs : List Char) (G : Gen) (ch : Char) (k : ℕ)
    (hd : TwoDistinct cs) (hg : FairGen G.c cs.length) :
    ∃ c2 k2, choose_another_character cs G ch k = .ok (c2, k2) ∧
      c2 ∈ cs ∧ c2 ≠ ch := by
  have hcs : cs ≠ [] := by
    rintro rfl
    obtain ⟨a, ha, -⟩ := hd
    exact absurd ha (List.not_mem_nil a)
  obtain ⟨a, ha, b, hb, hab⟩ := hd
  have hex : ∃ e ∈ cs, e ≠ ch := by
    by_cases hae : a = ch
    · refine ⟨b, hb, ?_⟩
      rw [← hae]
      exact fun hba => hab (hba.symm)
    · exact ⟨a, ha, hae⟩
  obtain ⟨e, he, hech⟩ := hex
  have hidx : List.indexOf e cs < cs.length := List.indexOf_lt_length.mpr he
  obtain ⟨j, hj, hjmod⟩ := hg k (List.indexOf e cs) hidx
  have hget : csGet cs (G.c j) = e := by
    unfold csGet
    rw [hjmod, List.getD_eq_getElem cs 'a' hidx]
    exact List.getElem_indexOf hidx
  have hexj : ∃ i, k ≤ i ∧ csGet cs (G.c i) ≠ ch := ⟨j, hj, by rw [hget]; exact hech⟩
  refine ⟨csGet cs (G.c (Nat.find hexj)), Nat.find hexj + 1, ?_, ?_, ?_⟩
  · unfold choose_another_character
    rw [if_neg hcs, dif_pos hexj]
  · exact csGet_mem cs hcs _
  · exact (Nat.find_spec hexj).2

theorem substitute_spec (cs : List Char) (G : Gen) (p : ℝ)
    (hd : TwoDistinct cs) (hg : FairGen G.c cs.length) :
    ∀ (text : List Char) (k : ℕ),
      ∃ out k2, substitute_random_chars cs G p text k = .ok (out, k2) ∧
        out.length = text.length ∧
        List.Forall₂ (fun a b => b = a ∨ (b ∈ cs ∧ b ≠ a)) text out := by
  intro text
  induction text with
  | nil => exact fun k => ⟨[], k, rfl, rfl, List.Forall₂.nil⟩
  | cons ch rest ih =>
      intro k
      by_cases hb : G.u k < p
      · obtain ⟨c2, k2, hcak, hmem, hne⟩ := choose_another_spec cs G ch (k + 1) hd hg
        obtain ⟨out, k3, hout, hlen, hrel⟩ := ih k2
        refine ⟨c2 :: out, k3, ?_, by simp [hlen],
          List.Forall₂.cons (Or.inr ⟨hmem, hne⟩) hrel⟩
        simp only [substitute_random_chars, if_pos hb, hcak, hout]
      · obtain ⟨out, k2, hout, hlen, hrel⟩ := ih (k + 1)
        refine ⟨ch :: out, k2, ?_, by simp [hlen],
          List.Forall₂.cons (Or.inl rfl) hrel⟩
        simp only [substitute_random_chars, if_neg hb, hout]

/-! ### Claim C7 -/

/-- Claim C7, confirmed: for every input, probability and random stream, the
swap executor's output is related to the input by `SwapStep` (only disjoint
adjacent transpositions, no character swapped twice), has the same length,
and the same multiset of characters. -/
theorem claim_C7_swap_invariants (G : Gen) (p : ℝ) (text : List Char) (k : ℕ) :
    SwapStep text (consecutive_swap_random_chars G p text k).1 ∧
    (consecutive_swap_random_chars G p text k).1.length = text.length ∧
    ((consecutive_swap_random_chars G p text k).1 : Multiset Char) =
      (text : Multiset Char) := by
  have h : SwapStep text (consecutive_swap_random_chars G p text k).1 :=
    swapAux_swapStep G (unbias_swap p text.length) text.length text le_rfl k
  exact ⟨h, h.length_eq, h.multiset_eq⟩

/-! ### Claim C10 -/

/-- Claim C10, confirmed: with a nonempty `character_set` (an empty one makes
`random.choice` raise `IndexError`), the insert executor succeeds, its output
length lies between the input length and twice the input length, and the
input is an in-order subsequence of the output. -/
theorem claim_C10_insert (cs : List Char) (G : Gen) (p : ℝ) (text : List Char)
    (k : ℕ) (hcs : cs ≠ []) :
    ∃ out k2, insert_random_chars cs G p text k = .ok (out, k2) ∧
      text.length ≤ out.length ∧ out.length ≤ 2 * text.length ∧
      List.Sublist text out :=
  insert_spec cs G p hcs text k

/-- Witness for C10 at a concrete alphabet, stream and input. -/
theorem claim_C10_witness :
    (['a'] : List Char) ≠ [] ∧
    ∃ out k2, insert_random_chars ['a'] genHalf 0 ['b'] 0 = .ok (out, k2) ∧
      (['b'] : List Char).length ≤ out.length ∧
      out.length ≤ 2 * (['b'] : List Char).length ∧
      List.Sublist ['b'] out :=
  ⟨by decide, claim_C10_insert ['a'] genHalf 0 ['b'] 0 (by decide)⟩

/-! ### Claim C8 -/

/-- Claim C8, confirmed: with a `character_set` holding two distinct symbols
(and the index stream reaching every alphabet index, as the real generator
does), the substitute executor succeeds, preserves the length, and every
output position either equals the original character or holds a member of
`character_set` different from the original. -/
theorem claim_C8_substitute (cs : List Char) (G : Gen) (p : ℝ) (text : List Char)
    (k : ℕ) (hd : TwoDistinct cs) (hg : FairGen G.c cs.length) :
    ∃ out k2, substitute_random_chars cs G p text k = .ok (out, k2) ∧
      out.length = text.length ∧
      List.Forall₂ (fun a b => b = a ∨ (b ∈ cs ∧ b ≠ a)) text out :=
  substitute_spec cs G p hd hg text k

/-- Witness for C8 at a concrete two-symbol alphabet, stream and input. -/
theorem claim_C8_witness :
    TwoDistinct ['a', 'b'] ∧
    ∃ out k2, substitute_random_chars ['a', 'b'] genHalf 0 ['a'] 0 = .ok (out, k2) ∧
      out.length = (['a'] : List Char).length ∧
      List.Forall₂ (fun a b => b = a ∨ (b ∈ (['a', 'b'] : List Char) ∧ b ≠ a))
        ['a'] out :=
  ⟨⟨'a', by decide, 'b', by decide, by decide⟩,
   claim_C8_substitute ['a', 'b'] genHalf 0 ['a'] 0
     ⟨'a', by decide, 'b', by decide, by decide⟩ (fair_id 2)⟩

/-! ### Claim C1 -/

theorem applyActionStr_total (cs : List Char) (a : String) (G : Gen) (p : ℝ)
    (s : List Char) (k : ℕ) (ha : a ∈ AVAILABLE_ACTIONS)
    (hd : TwoDistinct cs) (hg : FairGen G.c cs.length) :
    ∃ s2 k2, applyActionStr cs a G p s k = .ok (s2, k2) := by
  have hcs : cs ≠ [] := by
    rintro rfl
    obtain ⟨x, hx, -⟩ := hd
    exact absurd hx (List.not_mem_nil x)
  simp only [AVAILABLE_ACTIONS, List.mem_cons, List.mem_singleton,
    List.not_mem_nil, or_false] at ha
  rcases ha with rfl | rfl | rfl | rfl
  · obtain ⟨out, k2, h, -, -, -⟩ := insert_spec cs G p hcs s k
    refine ⟨out, k2, ?_⟩
    unfold applyActionStr
    rw [if_pos rfl]
    exact h
  · refine ⟨(consecutive_swap_random_chars G p s k).1,
      (consecutive_swap_random_chars G p s k).2, ?_⟩
    unfold applyActionStr
    rw [if_neg (by decide), if_pos rfl]
  · obtain ⟨out, k2, h, -, -⟩ := substitute_spec cs G p hd hg s k
    refine ⟨out, k2, ?_⟩
    unfold applyActionStr
    rw [if_neg (by decide), if_neg (by decide), if_pos rfl]
    exact h
  · refine ⟨(delete_random_chars G p s k).1, (delete_random_chars G p s k).2, ?_⟩
    unfold applyActionStr
    rw [if_neg (by decide), if_neg (by decide), if_neg (by decide), if_pos rfl]

theorem runActions_str_total (cs : List Char) (G : Gen) (p : ℝ) :
    ∀ (actions : List String), (∀ a ∈ actions, a ∈ AVAILABLE_ACTIONS) →
      TwoDistinct cs → FairGen G.c cs.length →
      ∀ (s : List Char) (k : ℕ),
        ∃ s2 k2, runActions cs G p actions (.str s) k = .ok (.str s2, k2) := by
  intro actions
  induction actions with
  | nil => exact fun _ _ _ s k => ⟨s, k, rfl⟩
  | cons a rest ih =>
      intro hall hd hg s k
      obtain ⟨s1, k1, h1⟩ :=
        applyActionStr_total cs a G p s k (hall a (List.mem_cons_self a rest)) hd hg
      obtain ⟨s2, k2, h2⟩ :=
        ih (fun b hb => hall b (List.mem_cons_of_mem a hb)) hd hg s1 k1
      refine ⟨s2, k2, ?_⟩
      simp only [runActions, h1, h2]

theorem applyActionStr_nil (cs : List Char) (a : String) (G : Gen) (p : ℝ)
    (k : ℕ) (ha : a ∈ AVAILABLE_ACTIONS) :
    applyActionStr cs a G p [] k = .ok ([], k) := by
  simp only [AVAILABLE_ACTIONS, List.mem_cons, List.mem_singleton,
    List.not_mem_nil, or_false] at ha
  rcases ha with rfl | rfl | rfl | rfl
  · unfold applyActionStr
    rw [if_pos rfl]
    rfl
  · unfold applyActionStr
    rw [if_neg (by decide), if_pos rfl]
    rfl
  · unfold applyActionStr
    rw [if_neg (by decide), if_neg (by decide), if_pos rfl]
    rfl
  · unfold applyActionStr
    rw [if_neg (by decide), if_neg (by decide), if_neg (by decide), if_pos rfl]
    rfl

theorem runActions_str_nil (cs : List Char) (G : Gen) (p : ℝ) :
    ∀ (actions : List String), (∀ a ∈ actions, a ∈ AVAILABLE_ACTIONS) →
      ∀ (k : ℕ), runActions cs G p actions (.str []) k = .ok (.str [], k) := by
  intro actions
  induction actions with
  | nil => exact fun _ k => rfl
  | cons a rest ih =>
      intro hall k
      have happ := applyActionStr_nil cs a G p k (hall a (List.mem_cons_self a rest))
      simp only [runActions, happ,
        ih (fun b hb => hall b (List.mem_cons_of_mem a hb)) k]

/-- Claim C1, amended: `add_noise` never fails on single-string inputs when
the augmenter is validly constructed with at least one action and a
`character_set` holding two distinct symbols (with the index stream reaching
every alphabet index, as the real generator does); on the empty string it is
the identity and consumes no randomness.  But on a token collection whose
total character count is zero — including the empty token list — it raises
`ZeroDivisionError` instead of returning the input unchanged. -/
theorem claim_C1_amended (cfg : Config) (G : Gen) (s : List Char)
    (ws : List (List Char)) (k : ℕ)
    (hall : ∀ a ∈ cfg.actions, a ∈ AVAILABLE_ACTIONS)
    (h0 : 0 ≤ cfg.noise_level) (h1 : cfg.noise_level ≤ 1)
    (hne : cfg.actions ≠ []) :
    (TwoDistinct cfg.character_set → FairGen G.c cfg.character_set.length →
      ∃ s2 k2, add_noise cfg G (.str s) k = .ok (.str s2, k2)) ∧
    add_noise cfg G (.str []) k = .ok (.str [], k) ∧
    ((ws.map List.length).sum = 0 →
      add_noise cfg G (.toks ws) k = .error .zeroDivision) := by
  have hn : cfg.actions.length ≠ 0 := by
    simpa using hne
  have hsev : unbias_several_action cfg.noise_level cfg.actions.length =
      .ok (1 - (1 - cfg.noise_level) ^ ((1 : ℝ) / (cfg.actions.length : ℝ))) := by
    unfold unbias_several_action
    rw [if_neg hn, if_neg (by intro h; linarith [h.1])]
  refine ⟨?_, ?_, ?_⟩
  · intro hd hg
    obtain ⟨s2, k2, h⟩ := runActions_str_total cfg.character_set G
      (1 - (1 - cfg.noise_level) ^ ((1 : ℝ) / (cfg.actions.length : ℝ)))
      cfg.actions hall hd hg s k
    refine ⟨s2, k2, ?_⟩
    unfold add_noise
    simp only [hsev, h]
  · unfold add_noise
    simp only [hsev, runActions_str_nil cfg.character_set G
      (1 - (1 - cfg.noise_level) ^ ((1 : ℝ) / (cfg.actions.length : ℝ)))
      cfg.actions hall k]
  · intro hz
    have hsplit : unbias_split_into_words cfg.noise_level ws = .error .zeroDivision := by
      unfold unbias_split_into_words
      rw [if_pos hz]
    unfold add_noise
    simp only [hsplit]

/-- Witness for C1 (amended) at a concrete valid configuration and stream. -/
theorem claim_C1_witness :
    (∃ s2 k2, add_noise cfg0 genHalf (.str ['x']) 0 = .ok (.str s2, k2)) ∧
    add_noise cfg0 genHalf (.str []) 0 = .ok (.str [], 0) ∧
    add_noise cfg0 genHalf (.toks []) 0 = .error .zeroDivision := by
  have h := claim_C1_amended cfg0 genHalf ['x'] [] 0 (by decide)
    (by norm_num [cfg0]) (by norm_num [cfg0]) (by decide)
  exact ⟨h.1 ⟨'a', by decide, 'b', by decide, by decide⟩ (fair_id 2),
    h.2.1, h.2.2 rfl⟩

/-- Claim C1, counterexample: a validly constructed augmenter raises
`ZeroDivisionError` on the empty token list instead of returning it. -/
theorem claim_C1_counterexample :
    init (1 / 2) ["delete"] ['a', 'b'] = .ok cfg0 ∧
    add_noise cfg0 genHalf (.toks []) 0 = .error .zeroDivision := by
  constructor
  · have hd : dedupFirst ["delete"] = ["delete"] := by decide
    simp only [init, hd]
    rw [if_neg (not_not_intro (by decide)),
      if_neg (not_not_intro (by norm_num)),
      if_neg (fun h => absurd h.2 (by decide))]
    rfl
  · rfl

end Textnoisr
